import Mathlib

/-!
Shallow embedding of `src/on2iob.py`, a converter from Ontonotes 5
span-annotated XML (`.name` files) to per-sentence IOB token/tag data.

Conventions of the embedding:
* Python strings are modelled as `List Char` (called `Str` here); Python's
  `str.split(sep)` for a one-character separator is `splitOnChar`, with the
  same semantics (`"".split(c) = [""]`, separators at the ends produce empty
  pieces).
* Python's truthiness test `if s:` on a string (which skips both `None` and
  `""`) is modelled as `s ≠ []`, with `[]` standing for an absent text/tail.
* Fallible operations (`attrib['TYPE']` raising `KeyError`, the sentence-count
  `RuntimeError`) are modelled with `Except`.
* The float fractions of `build_random_partitions` are modelled as exact
  rationals; Python's `int()` on the nonnegative products is `Int.floor`.
-/

set_option autoImplicit false

namespace On2iob

/-- Python strings, modelled as lists of characters. -/
abbrev Str := List Char

/-- One `(word, tag)` 2-tuple of the IOB data. -/
abbrev TokTag := Str × Str

/-- One sentence: an ordered list of `(word, tag)` pairs. -/
abbrev Sentence := List TokTag

/-- Python's `s.split(sep)` generalized to a Boolean separator predicate.
Mirrors CPython semantics for a one-element separator: the empty list splits
to `[[]]`, and a separator element always starts a fresh (possibly empty)
piece. -/
def splitOnPred {α : Type} (p : α → Bool) : List α → List (List α)
  | [] => [[]]
  | x :: xs =>
    if p x then [] :: splitOnPred p xs
    else
      match splitOnPred p xs with
      | [] => [[x]]
      | piece :: rest => (x :: piece) :: rest

/-- Python's `s.split(c)` for a single character `c`. -/
def splitOnChar (c : Char) (s : Str) : List Str :=
  splitOnPred (fun x => x = c) s

/-- Python's `line.strip(' ')`: remove leading and trailing space characters
(only literal spaces, not other whitespace). -/
def stripSpaces (s : Str) : Str :=
  ((s.dropWhile (fun c => c = ' ')).reverse.dropWhile (fun c => c = ' ')).reverse

/-- Python's `str.lower()`, restricted to the per-character lowercasing used
by the entity-type labels. -/
def lower (s : Str) : Str := s.map Char.toLower

/-- Append a `(word, tag)` pair to the last sentence of the accumulator:
Python's `data[-1].append((word, tag))`.  The `[]` case is unreachable in the
program (the accumulator starts as `[[]]` and never shrinks). -/
def appendLast (data : List Sentence) (tt : TokTag) : List Sentence :=
  match data with
  | [] => []
  | [s] => [s ++ [tt]]
  | s :: rest => s :: appendLast rest tt

/-- Build the tag string from the IOB position character and the entity type:
Python's `tag_pos + '-' + tag_type if tag_type else O`. -/
def mkTag (tag_pos : Char) (tag_type : Str) : Str :=
  if tag_type = [] then ['O'] else tag_pos :: '-' :: tag_type

/-- The inner word loop of `tag_text`: iterate over the space-split words of a
line, skipping empty words, appending `(word, tag)` pairs to the last
sentence, and switching the position from `B` to `I` after the first word. -/
def tagWords (tag_type : Str) : Char → List Str → List Sentence → List Sentence
  | _, [], data => data
  | tag_pos, w :: ws, data =>
    if w = [] then tagWords tag_type tag_pos ws data
    else tagWords tag_type 'I' ws (appendLast data (w, mkTag tag_pos tag_type))

/-- Process a single line of a text segment: strip spaces, split on single
spaces, and tag the words starting from the `B` position. -/
def tagLine (tag_type : Str) (line : Str) (data : List Sentence) : List Sentence :=
  tagWords tag_type 'B' (splitOnChar ' ' (stripSpaces line)) data

/-- The outer line loop of `tag_text`: after each line that is not the last
one, append a fresh empty sentence to the accumulator (`data.append([])`). -/
def tagLines (tag_type : Str) : List Str → List Sentence → List Sentence
  | [], data => data
  | [line], data => tagLine tag_type line data
  | line :: rest, data => tagLines tag_type rest (tagLine tag_type line data ++ [[]])

/-- The nested helper `tag_text(text, tag_type)` of `xml2iob`: split the text
into lines at newlines, tokenize and tag each line, and split off a new
sentence between lines. -/
def tag_text (text : Str) (tag_type : Str) (data : List Sentence) : List Sentence :=
  tagLines tag_type (splitOnChar '\n' text) data

/-- An element-tree node: tag name, attribute list, leading text, ordered
children, and trailing (tail) text.  `[]` text/tail stands for Python `None`
or `''` (both falsy, both skipped identically by the code). -/
inductive XmlNode : Type where
  | mk (tag : Str) (attrib : List (Str × Str)) (text : Str)
       (children : List XmlNode) (tail : Str)

/-- Tag name of a node. -/
def XmlNode.tag : XmlNode → Str
  | .mk t _ _ _ _ => t

/-- Attribute list of a node. -/
def XmlNode.attrib : XmlNode → List (Str × Str)
  | .mk _ a _ _ _ => a

/-- Leading text of a node. -/
def XmlNode.text : XmlNode → Str
  | .mk _ _ tx _ _ => tx

/-- Children of a node. -/
def XmlNode.children : XmlNode → List XmlNode
  | .mk _ _ _ c _ => c

/-- Tail text of a node. -/
def XmlNode.tail : XmlNode → Str
  | .mk _ _ _ _ tl => tl

/-- First-match dictionary lookup, modelling `et_node.attrib[key]` access
(`none` means the access raises `KeyError`). -/
def lookupAttr (attrib : List (Str × Str)) (key : Str) : Option Str :=
  match attrib with
  | [] => none
  | (k, v) :: rest => if k = key then some v else lookupAttr rest key

/-- Errors the program can raise while converting one document. -/
inductive PyErr : Type where
  /-- `KeyError` from `et_node.attrib['TYPE']` on an `ENAMEX` node without a
  `TYPE` attribute. -/
  | keyErrorTYPE
  /-- The `RuntimeError` of `parse_iob_files` when the parsed sentence count
  disagrees with the raw line count; carries the filename and both counts. -/
  | mismatch (filename : Str) (nsent : Nat) (nraw_sent : Int)
deriving DecidableEq

/-- The tag-name constant `'ENAMEX'` marking entity spans. -/
def enamexTag : Str := 'E' :: 'N' :: 'A' :: 'M' :: 'E' :: ['X']

/-- The attribute-key constant `'TYPE'` carrying the entity type. -/
def typeKey : Str := 'T' :: 'Y' :: 'P' :: ['E']

/-- The leading-text step of `xml2iob`: `if et_node.text:` determine
`tag_type` (the lowercased `TYPE` attribute when the node is an `ENAMEX`
entity span, raising `KeyError` when that attribute is missing; the empty
type otherwise) and run `tag_text` on the text. -/
def textStep (tag : Str) (attrib : List (Str × Str)) (text : Str)
    (data : List Sentence) : Except PyErr (List Sentence) :=
  if text ≠ [] then
    if tag = enamexTag then
      match lookupAttr attrib typeKey with
      | some v => .ok (tag_text text (lower v) data)
      | none => .error .keyErrorTYPE
    else .ok (tag_text text [] data)
  else .ok data

/-- The tail step of `xml2iob`: `if et_node.tail:` tag the tail text as
outside of any entity. -/
def tailStep (tail : Str) (data : List Sentence) : List Sentence :=
  if tail ≠ [] then tag_text tail [] data else data

mutual

/-- Recursive converter `xml2iob(et_node, data)`: tag the node's leading text
(with the lowercased `TYPE` attribute if the node is an `ENAMEX` entity span,
else as outside), recurse depth-first over the children, then tag the tail
text as outside.  The explicit matches on `Except` model Python's exception
propagation: any raised error aborts the document's conversion. -/
def xml2iob (node : XmlNode) (data : List Sentence) : Except PyErr (List Sentence) :=
  match node with
  | .mk tag attrib text children tail =>
    match textStep tag attrib text data with
    | .error e => .error e
    | .ok d1 =>
      match xml2iobList children d1 with
      | .error e => .error e
      | .ok d2 => .ok (tailStep tail d2)

/-- The `for et_child in et_node:` loop of `xml2iob`, threading the
accumulator through the children in document order. -/
def xml2iobList (nodes : List XmlNode) (data : List Sentence) : Except PyErr (List Sentence) :=
  match nodes with
  | [] => .ok data
  | c :: cs =>
    match xml2iob c data with
    | .error e => .error e
    | .ok d1 => xml2iobList cs d1

end

/-- Python whitespace characters stripped by the no-argument `str.strip()`
(restricted to the ASCII whitespace relevant to `.name` files). -/
def pyWhitespace (c : Char) : Bool :=
  c = ' ' || c = '\t' || c = '\n' || c = '\r' || c = '\x0b' || c = '\x0c'

/-- Truthiness of `line.strip()`: the line contains some non-whitespace
character. -/
def pyStripTruthy (line : Str) : Bool :=
  line.any (fun c => !pyWhitespace c)

/-- The count `len(list(filter(lambda line: line.strip(), raw_data.split('\n'))))`
of non-empty lines in a raw document. -/
def countNonEmptyLines (raw_data : Str) : Nat :=
  ((splitOnChar '\n' raw_data).filter pyStripTruthy).length

/-- Per-document body of `parse_iob_files` (file reading and the external XML
parser are abstracted: the raw text and the parsed tree are taken as inputs):
run `xml2iob` from the initial `[[]]` accumulator, filter out empty sentences,
and raise the `RuntimeError` when the sentence count differs from the count of
non-empty raw lines minus 2. -/
def parse_iob_file (filename : Str) (raw_data : Str) (et_root : XmlNode) :
    Except PyErr (List Sentence) :=
  match xml2iob et_root [[]] with
  | .error e => .error e
  | .ok data =>
    let local_iob_data := data.filter (fun sent => !sent.isEmpty)
    let nsent := local_iob_data.length
    let nraw_sent : Int := (countNonEmptyLines raw_data : Int) - 2
    if (nsent : Int) ≠ nraw_sent then
      .error (.mismatch filename nsent nraw_sent)
    else
      .ok local_iob_data

/-- The lines written for one sentence by `write_iob`:
`' '.join(token_tag) + '\n'` for each `(word, tag)` pair. -/
def sentLines (sent : Sentence) : Str :=
  (sent.map (fun tt => tt.1 ++ ' ' :: tt.2 ++ ['\n'])).flatten

/-- Serializer `write_iob(filename, data)` modelled as producing the written
string (`none` models the `assert sent` failing on an empty sentence).  One
token/tag line per pair, one extra blank line after every sentence except the
last. -/
def write_iob : List Sentence → Option Str
  | [] => some []
  | sent :: rest =>
    if sent.isEmpty then none
    else
      match rest with
      | [] => some (sentLines sent)
      | _ :: _ => (write_iob rest).map (fun r => sentLines sent ++ '\n' :: r)

/-- Split a serialized token line on its first space into the `(word, tag)`
pair, as the round-trip re-parser of the spec prescribes. -/
def splitFirstSpace (line : Str) : TokTag :=
  (line.takeWhile (fun c => c ≠ ' '), (line.dropWhile (fun c => c ≠ ' ')).drop 1)

/-- Re-parser for the IOB serialization format, following the spec's words:
split the text into lines, group the lines at blank-line boundaries (dropping
empty groups, e.g. the one after the final newline), then split each line on
its first space. -/
def parse_iob (s : Str) : List Sentence :=
  (((splitOnPred (fun line : Str => line.isEmpty) (splitOnChar '\n' s)).filter
    (fun g => !g.isEmpty)).map (fun g => g.map splitFirstSpace))

/-- Deep copy of a value: on the immutable values of this embedding it is the
identity; the aliasing aspect (`copy.deepcopy` creating a fresh object so the
caller's list is not shuffled in place) is modelled separately by
`build_random_partitions_heap`. -/
def deepcopy {α : Type} (x : α) : α := x

/-- Partitioner `build_random_partitions(iob_data, valid_frac, test_frac,
seed)`.  The seeded `random.Random(seed).shuffle` is external (a Mersenne
Twister), so it is taken as a function parameter; the float fractions are
modelled as exact rationals, and Python's `int()` on the nonnegative products
is the floor.  The slice bounds and the three returned slices follow the
source: `train_data = iob_data[:valid_end]`, `valid_data =
iob_data[valid_end:test_end]`, `test_data = iob_data[test_end:]`. -/
def build_random_partitions {α : Type} (shuffle : List α → List α)
    (iob_data : List α) (valid_frac : ℚ) (test_frac : ℚ) :
    List α × List α × List α :=
  let iob_data := shuffle (deepcopy iob_data)
  let nsent := iob_data.length
  let valid_end := (⌊valid_frac * (nsent : ℚ)⌋).toNat
  let test_end := valid_end + (⌊test_frac * (nsent : ℚ)⌋).toNat
  let train_data := iob_data.take valid_end
  let valid_data := (iob_data.drop valid_end).take (test_end - valid_end)
  let test_data := iob_data.drop test_end
  (train_data, valid_data, test_data)

/-- Store-passing model of `build_random_partitions` making the Python object
heap explicit: the store is a list of list-objects addressed by index, `p` is
the address of the caller's argument list.  `copy.deepcopy` allocates a fresh
cell at address `store.length`, and `rng.shuffle` mutates that fresh cell in
place; the function returns the final store together with the three slices. -/
def build_random_partitions_heap {α : Type} (shuffle : List α → List α)
    (valid_frac : ℚ) (test_frac : ℚ) (store : List (List α)) (p : Nat) :
    List (List α) × (List α × List α × List α) :=
  let q := store.length
  let store := store ++ [deepcopy (store.getD p [])]
  let store := store.set q (shuffle (store.getD q []))
  let iob_data := store.getD q []
  let nsent := iob_data.length
  let valid_end := (⌊valid_frac * (nsent : ℚ)⌋).toNat
  let test_end := valid_end + (⌊test_frac * (nsent : ℚ)⌋).toNat
  (store,
    (iob_data.take valid_end,
     (iob_data.drop valid_end).take (test_end - valid_end),
     iob_data.drop test_end))

/-- Delimiters of the tokenization: the space and newline characters, the only
whitespace the converter splits on. -/
def isDelim (c : Char) : Bool := c = ' ' || c = '\n'

/-- Specification-side word extraction: the non-empty substrings of a text
segment delimited by whitespace (the space and newline delimiters the format
uses), in order.  Defined in one pass, independently of the per-line
strip/split machinery of `tag_text`. -/
def wordsSpec (s : Str) : List Str :=
  (splitOnPred isDelim s).filter (fun w => !w.isEmpty)

/-- The non-empty words of one line, as produced by splitting on single
spaces and skipping empties. -/
def lineWords (line : Str) : List Str :=
  (splitOnChar ' ' line).filter (fun w => !w.isEmpty)

/-- The `(word, tag)` pairs the word loop of `tag_text` emits for a word list,
starting at position `tag_pos`: empty words are skipped, and the position
switches to `I` after the first emitted word. -/
def wordPairs (tag_type : Str) : Char → List Str → List TokTag
  | _, [] => []
  | tag_pos, w :: ws =>
    if w = [] then wordPairs tag_type tag_pos ws
    else (w, mkTag tag_pos tag_type) :: wordPairs tag_type 'I' ws

/-- All words of an accumulator, in emission order. -/
def flatWords (data : List Sentence) : List Str :=
  data.flatten.map Prod.fst

/-- The `(word, tag)` pairs one line of an entity segment with non-empty type
`tag_type` receives: the first word of the line is tagged `B-` and every
subsequent word of the same line `I-`, with the same type. -/
def lineTagsBI (tag_type : Str) (l : Str) : List TokTag :=
  match lineWords l with
  | [] => []
  | w :: rest =>
    (w, 'B' :: '-' :: tag_type) :: rest.map (fun r => (r, 'I' :: '-' :: tag_type))

mutual

/-- All words of a document tree in document order: words of the node's text,
then of the children recursively, then of the tail. -/
def docWords : XmlNode → List Str
  | .mk _ _ text children tail => wordsSpec text ++ docWordsList children ++ wordsSpec tail

/-- Words of a list of sibling nodes in order. -/
def docWordsList : List XmlNode → List Str
  | [] => []
  | c :: cs => docWords c ++ docWordsList cs

end

mutual

/-- A tree contains a malformed entity node: an `ENAMEX` node with truthy text
but no `TYPE` attribute (the configuration on which `et_node.attrib['TYPE']`
raises `KeyError`). -/
def hasMalformedEntity : XmlNode → Bool
  | .mk tag attrib text children _ =>
    (decide (tag = enamexTag) && !text.isEmpty && (lookupAttr attrib typeKey).isNone)
      || hasMalformedEntityList children

/-- Some node of the list contains a malformed entity node. -/
def hasMalformedEntityList : List XmlNode → Bool
  | [] => false
  | c :: cs => hasMalformedEntity c || hasMalformedEntityList cs

end

example :
    tag_text ('A' :: 'l' :: 'i' :: 'c' :: ['e'] ++ '\n' :: 'B' :: 'o' :: ['b']) [] [[]] =
      [[(['A', 'l', 'i', 'c', 'e'], ['O'])], [(['B', 'o', 'b'], ['O'])]] := by
  decide

example :
    xml2iob (.mk (['D', 'O', 'C']) [] ('a' :: ' ' :: ['b']) [] []) [[]] =
      .ok [[(['a'], ['O']), (['b'], ['O'])]] := by
  rfl

/-! ### Structure lemmas about `splitOnPred` -/

theorem splitOnPred_ne_nil {α : Type} (p : α → Bool) (s : List α) : splitOnPred p s ≠ [] := by
  cases s with
  | nil => simp [splitOnPred]
  | cons x xs =>
    by_cases h : p x = true
    · simp [splitOnPred, h]
    · simp only [splitOnPred, h, if_false, Bool.false_eq_true]
      rcases hs : splitOnPred p xs with _ | ⟨piece, rest⟩ <;> simp

theorem splitOnPred_cons {α : Type} (p : α → Bool) (x : α) (xs : List α) :
    splitOnPred p (x :: xs) =
      if p x then [] :: splitOnPred p xs
      else (x :: (splitOnPred p xs).headI) :: (splitOnPred p xs).tail := by
  by_cases h : p x = true
  · simp [splitOnPred, h]
  · simp only [splitOnPred, h, if_false, Bool.false_eq_true]
    rcases hs : splitOnPred p xs with _ | ⟨piece, rest⟩
    · exact absurd hs (splitOnPred_ne_nil p xs)
    · simp

theorem headI_cons_tail {α : Type} [Inhabited α] : ∀ {l : List α}, l ≠ [] → l.headI :: l.tail = l
  | [], h => absurd rfl h
  | _ :: _, _ => rfl

/-! ### Lemmas about the accumulator operations of `tag_text` -/

theorem length_appendLast (data : List Sentence) (tt : TokTag) :
    (appendLast data tt).length = data.length := by
  induction data with
  | nil => rfl
  | cons s rest ih =>
    cases rest with
    | nil => rfl
    | cons a as => simpa [appendLast] using ih

theorem appendLast_ne_nil {data : List Sentence} (h : data ≠ []) (tt : TokTag) :
    appendLast data tt ≠ [] := by
  intro hc
  have : (appendLast data tt).length = 0 := by rw [hc]; rfl
  rw [length_appendLast] at this
  exact h (List.length_eq_zero.mp this)

theorem appendLast_append (xs : List Sentence) {d : List Sentence} (h : d ≠ []) (tt : TokTag) :
    appendLast (xs ++ d) tt = xs ++ appendLast d tt := by
  induction xs with
  | nil => simp
  | cons s rest ih =>
    cases hr : rest ++ d with
    | nil => exact absurd (List.append_eq_nil.mp hr).2 h
    | cons a as =>
      show appendLast (s :: (rest ++ d)) tt = s :: (rest ++ appendLast d tt)
      rw [hr, ← ih]
      simp only [appendLast, ← hr]

theorem flatten_appendLast {data : List Sentence} (h : data ≠ []) (tt : TokTag) :
    (appendLast data tt).flatten = data.flatten ++ [tt] := by
  induction data with
  | nil => exact absurd rfl h
  | cons s rest ih =>
    cases rest with
    | nil => simp [appendLast]
    | cons a as =>
      have hrec := ih (by simp)
      simp only [appendLast, List.flatten_cons, hrec, List.append_assoc]

/-! ### Lemmas about the word loop `tagWords` -/

theorem tagWords_length (tag_type : Str) (ws : List Str) :
    ∀ (tp : Char) (data : List Sentence), (tagWords tag_type tp ws data).length = data.length := by
  induction ws with
  | nil => intro tp data; rfl
  | cons w ws ih =>
    intro tp data
    by_cases hw : w = []
    · simp [tagWords, hw, ih]
    · simp [tagWords, hw, ih, length_appendLast]

theorem tagWords_ne_nil (tag_type : Str) (tp : Char) (ws : List Str) {data : List Sentence}
    (h : data ≠ []) : tagWords tag_type tp ws data ≠ [] := by
  intro hc
  have : (tagWords tag_type tp ws data).length = 0 := by rw [hc]; rfl
  rw [tagWords_length] at this
  exact h (List.length_eq_zero.mp this)

theorem tagWords_append (tag_type : Str) (ws : List Str) :
    ∀ (tp : Char) (xs : List Sentence) {d : List Sentence}, d ≠ [] →
      tagWords tag_type tp ws (xs ++ d) = xs ++ tagWords tag_type tp ws d := by
  induction ws with
  | nil => intro tp xs d h; rfl
  | cons w ws ih =>
    intro tp xs d h
    by_cases hw : w = []
    · simp only [tagWords, hw, if_true, reduceIte]
      exact ih tp xs h
    · simp only [tagWords, hw, if_false, reduceIte]
      rw [appendLast_append xs h, ih 'I' xs (appendLast_ne_nil h _)]

theorem flatten_tagWords (tag_type : Str) (ws : List Str) :
    ∀ (tp : Char) {data : List Sentence}, data ≠ [] →
      (tagWords tag_type tp ws data).flatten = data.flatten ++ wordPairs tag_type tp ws := by
  induction ws with
  | nil => intro tp data h; simp [tagWords, wordPairs]
  | cons w ws ih =>
    intro tp data h
    by_cases hw : w = []
    · simp only [tagWords, wordPairs, hw, if_true, reduceIte]
      exact ih tp h
    · simp only [tagWords, wordPairs, hw, if_false, reduceIte]
      rw [ih 'I' (appendLast_ne_nil h _), flatten_appendLast h]
      simp [List.append_assoc]

/-! ### Lemmas about the line loop `tagLines` and `tag_text` -/

theorem tagLine_length (tag_type line : Str) (data : List Sentence) :
    (tagLine tag_type line data).length = data.length :=
  tagWords_length tag_type _ 'B' data

theorem tagLine_ne_nil (tag_type line : Str) {data : List Sentence} (h : data ≠ []) :
    tagLine tag_type line data ≠ [] :=
  tagWords_ne_nil tag_type 'B' _ h

theorem tagLine_append (tag_type line : Str) (xs : List Sentence) {d : List Sentence}
    (h : d ≠ []) : tagLine tag_type line (xs ++ d) = xs ++ tagLine tag_type line d :=
  tagWords_append tag_type _ 'B' xs h

theorem flatten_tagLine (tag_type line : Str) {data : List Sentence} (h : data ≠ []) :
    (tagLine tag_type line data).flatten =
      data.flatten ++ wordPairs tag_type 'B' (splitOnChar ' ' (stripSpaces line)) :=
  flatten_tagWords tag_type _ 'B' h

theorem tagLines_ne_nil (tag_type : Str) (lines : List Str) :
    ∀ {data : List Sentence}, data ≠ [] → tagLines tag_type lines data ≠ [] := by
  induction lines with
  | nil => intro data h; exact h
  | cons l rest ih =>
    intro data h
    cases rest with
    | nil => exact tagLine_ne_nil tag_type l h
    | cons l2 ls => exact ih (by simp)

theorem tagLines_append (tag_type : Str) (lines : List Str) :
    ∀ (xs : List Sentence) {d : List Sentence}, d ≠ [] →
      tagLines tag_type lines (xs ++ d) = xs ++ tagLines tag_type lines d := by
  induction lines with
  | nil => intro xs d h; rfl
  | cons l rest ih =>
    intro xs d h
    cases rest with
    | nil => exact tagLine_append tag_type l xs h
    | cons l2 ls =>
      show tagLines tag_type (l2 :: ls) (tagLine tag_type l (xs ++ d) ++ [[]]) =
        xs ++ tagLines tag_type (l2 :: ls) (tagLine tag_type l d ++ [[]])
      rw [tagLine_append tag_type l xs h, List.append_assoc]
      exact ih xs (by simp)

theorem flatten_tagLines (tag_type : Str) (lines : List Str) :
    ∀ {data : List Sentence}, data ≠ [] →
      (tagLines tag_type lines data).flatten =
        data.flatten ++
          lines.flatMap (fun l => wordPairs tag_type 'B' (splitOnChar ' ' (stripSpaces l))) := by
  induction lines with
  | nil => intro data h; simp [tagLines]
  | cons l rest ih =>
    intro data h
    cases rest with
    | nil => simpa using flatten_tagLine tag_type l h
    | cons l2 ls =>
      show (tagLines tag_type (l2 :: ls) (tagLine tag_type l data ++ [[]])).flatten = _
      rw [ih (by simp)]
      simp [flatten_tagLine tag_type l h, List.append_assoc]

theorem tag_text_ne_nil (text tag_type : Str) {data : List Sentence} (h : data ≠ []) :
    tag_text text tag_type data ≠ [] :=
  tagLines_ne_nil tag_type _ h

theorem tag_text_append (text tag_type : Str) (xs : List Sentence) {d : List Sentence}
    (h : d ≠ []) : tag_text text tag_type (xs ++ d) = xs ++ tag_text text tag_type d :=
  tagLines_append tag_type _ xs h

theorem flatten_tag_text (text tag_type : Str) {data : List Sentence} (h : data ≠ []) :
    (tag_text text tag_type data).flatten =
      data.flatten ++
        (splitOnChar '\n' text).flatMap
          (fun l => wordPairs tag_type 'B' (splitOnChar ' ' (stripSpaces l))) :=
  flatten_tagLines tag_type _ h

/-! ### Words emitted for one line or one segment -/

theorem map_fst_wordPairs (tag_type : Str) :
    ∀ (tp : Char) (ws : List Str),
      (wordPairs tag_type tp ws).map Prod.fst = ws.filter (fun w => !w.isEmpty) := by
  intro tp ws
  induction ws generalizing tp with
  | nil => rfl
  | cons w rest ih =>
    by_cases hw : w = []
    · subst hw; simp [wordPairs, ih]
    · simp [wordPairs, hw, ih, List.isEmpty_iff]

theorem headI_append {α : Type} [Inhabited α] {A : List α} (B : List α) (h : A ≠ []) :
    (A ++ B).headI = A.headI := by
  cases A with
  | nil => exact absurd rfl h
  | cons a as => rfl

theorem tail_append_left {α : Type} {A : List α} (B : List α) (h : A ≠ []) :
    (A ++ B).tail = A.tail ++ B := by
  cases A with
  | nil => exact absurd rfl h
  | cons a as => rfl

theorem splitOnChar_ne_nil (c : Char) (s : Str) : splitOnChar c s ≠ [] :=
  splitOnPred_ne_nil _ s

theorem splitOnChar_cons (c x : Char) (xs : Str) :
    splitOnChar c (x :: xs) =
      if x = c then [] :: splitOnChar c xs
      else (x :: (splitOnChar c xs).headI) :: (splitOnChar c xs).tail := by
  unfold splitOnChar
  rw [splitOnPred_cons]
  by_cases h : x = c <;> simp [h]

theorem splitOnPred_append_true {α : Type} (p : α → Bool) {a : α} (ha : p a = true) :
    ∀ (l : List α), splitOnPred p (l ++ [a]) = splitOnPred p l ++ [[]] := by
  intro l
  induction l with
  | nil => simp [splitOnPred, ha]
  | cons x xs ih =>
    rw [List.cons_append, splitOnPred_cons, splitOnPred_cons, ih]
    by_cases hx : p x = true
    · simp [hx]
    · simp only [hx, Bool.false_eq_true, if_false]
      rw [headI_append _ (splitOnPred_ne_nil p xs), tail_append_left _ (splitOnPred_ne_nil p xs)]
      simp

theorem lineWords_cons_space (l : Str) : lineWords (' ' :: l) = lineWords l := by
  unfold lineWords
  rw [splitOnChar_cons]
  simp

theorem lineWords_append_space (l : Str) : lineWords (l ++ [' ']) = lineWords l := by
  unfold lineWords splitOnChar
  rw [splitOnPred_append_true _ (by simp)]
  simp

theorem lineWords_dropWhile_space (l : Str) :
    lineWords (l.dropWhile (fun c => c = ' ')) = lineWords l := by
  induction l with
  | nil => rfl
  | cons x xs ih =>
    by_cases hx : x = ' '
    · subst hx
      rw [List.dropWhile_cons_of_pos (by simp), ih, lineWords_cons_space]
    · rw [List.dropWhile_cons_of_neg (by simp [hx])]

theorem lineWords_append_replicate (l : Str) (n : Nat) :
    lineWords (l ++ List.replicate n ' ') = lineWords l := by
  induction n with
  | zero => simp
  | succ n ih =>
    rw [List.replicate_succ', ← List.append_assoc, lineWords_append_space, ih]

theorem lineWords_stripSpaces (l : Str) : lineWords (stripSpaces l) = lineWords l := by
  unfold stripSpaces
  have hsplit : l.dropWhile (fun c => c = ' ') =
      ((l.dropWhile (fun c => c = ' ')).reverse.dropWhile (fun c => c = ' ')).reverse ++
        List.replicate
          ((l.dropWhile (fun c => c = ' ')).reverse.takeWhile (fun c => c = ' ')).length ' ' := by
    conv_lhs => rw [← List.reverse_reverse (l.dropWhile (fun c => c = ' ')),
      ← List.takeWhile_append_dropWhile
        (p := fun c => decide (c = ' ')) (l := (l.dropWhile (fun c => c = ' ')).reverse)]
    rw [List.reverse_append]
    congr 1
    obtain ⟨n, hn⟩ : ∃ n,
        (l.dropWhile (fun c => c = ' ')).reverse.takeWhile (fun c => c = ' ') =
          List.replicate n ' ' := by
      refine ⟨((l.dropWhile (fun c => c = ' ')).reverse.takeWhile (fun c => c = ' ')).length, ?_⟩
      apply List.eq_replicate_iff.mpr
      refine ⟨rfl, fun b hb => ?_⟩
      have := List.mem_takeWhile_imp hb
      simpa using this
    rw [hn, List.reverse_replicate, List.length_replicate]
  calc lineWords ((l.dropWhile (fun c => c = ' ')).reverse.dropWhile (fun c => c = ' ')).reverse
      = lineWords (l.dropWhile (fun c => c = ' ')) := by
        conv_rhs => rw [hsplit]
        exact (lineWords_append_replicate _ _).symm
    _ = lineWords l := lineWords_dropWhile_space l

theorem headI_cons {α : Type} [Inhabited α] (a : α) (l : List α) : (a :: l).headI = a := rfl

theorem splitOnPred_cons_true {α : Type} {p : α → Bool} {x : α} (h : p x = true) (xs : List α) :
    splitOnPred p (x :: xs) = [] :: splitOnPred p xs := by
  rw [splitOnPred_cons]
  simp [h]

theorem splitOnPred_cons_false {α : Type} {p : α → Bool} {x : α} (h : p x = false) (xs : List α) :
    splitOnPred p (x :: xs) =
      (x :: (splitOnPred p xs).headI) :: (splitOnPred p xs).tail := by
  rw [splitOnPred_cons]
  simp [h]

theorem splitOnChar_cons_self (c : Char) (xs : Str) :
    splitOnChar c (c :: xs) = [] :: splitOnChar c xs := by
  rw [splitOnChar_cons]
  simp

theorem splitOnChar_cons_ne {c x : Char} (h : x ≠ c) (xs : Str) :
    splitOnChar c (x :: xs) =
      (x :: (splitOnChar c xs).headI) :: (splitOnChar c xs).tail := by
  rw [splitOnChar_cons]
  simp [h]

/-- Derivation of the segment-words bridge from the two components of the
split invariant: if the current pieces of the nested and the single split
agree and the remaining non-empty pieces agree, the full word lists agree. -/
theorem bridge_of_aux (s : Str)
    (h1 : (splitOnChar ' ' ((splitOnChar '\n' s).headI)).headI = (splitOnPred isDelim s).headI)
    (h2 : (splitOnChar ' ' ((splitOnChar '\n' s).headI)).tail.filter (fun w => !w.isEmpty) ++
        ((splitOnChar '\n' s).tail).flatMap lineWords =
      ((splitOnPred isDelim s).tail).filter (fun w => !w.isEmpty)) :
    (splitOnChar '\n' s).flatMap lineWords = wordsSpec s := by
  obtain ⟨hL, tL, hLs⟩ : ∃ h t, splitOnChar '\n' s = h :: t := by
    rcases e : splitOnChar '\n' s with _ | ⟨h, t⟩
    · exact absurd e (splitOnChar_ne_nil '\n' s)
    · exact ⟨h, t, rfl⟩
  obtain ⟨hW1, tW, hWs⟩ : ∃ h t, splitOnChar ' ' hL = h :: t := by
    rcases e : splitOnChar ' ' hL with _ | ⟨h, t⟩
    · exact absurd e (splitOnChar_ne_nil ' ' hL)
    · exact ⟨h, t, rfl⟩
  obtain ⟨hP, tP, hPs⟩ : ∃ h t, splitOnPred isDelim s = h :: t := by
    rcases e : splitOnPred isDelim s with _ | ⟨h, t⟩
    · exact absurd e (splitOnPred_ne_nil isDelim s)
    · exact ⟨h, t, rfl⟩
  rw [hLs] at h1 h2 ⊢
  rw [hPs] at h1 h2
  simp only [headI_cons, List.tail_cons] at h1 h2
  rw [hWs] at h1 h2
  simp only [headI_cons, List.tail_cons] at h1 h2
  subst h1
  rw [List.flatMap_cons]
  unfold wordsSpec
  rw [hPs, List.filter_cons]
  have hlw : lineWords hL =
      if (!hW1.isEmpty) = true then hW1 :: tW.filter (fun w => !w.isEmpty)
      else tW.filter (fun w => !w.isEmpty) := by
    unfold lineWords
    rw [hWs, List.filter_cons]
  rw [hlw]
  by_cases hk : (!hW1.isEmpty) = true
  · rw [if_pos hk, if_pos hk, List.cons_append, h2]
  · rw [if_neg hk, if_neg hk, h2]

/-- Auxiliary invariant tying the nested newline/space splits of a segment to
the single split at both delimiters: the current (first) pieces agree, and the
remaining non-empty pieces agree. -/
theorem split_aux (s : Str) :
    (splitOnChar ' ' ((splitOnChar '\n' s).headI)).headI = (splitOnPred isDelim s).headI ∧
      (splitOnChar ' ' ((splitOnChar '\n' s).headI)).tail.filter (fun w => !w.isEmpty) ++
          ((splitOnChar '\n' s).tail).flatMap lineWords =
        ((splitOnPred isDelim s).tail).filter (fun w => !w.isEmpty) := by
  induction s with
  | nil => exact ⟨rfl, rfl⟩
  | cons c cs ih =>
    have hb := bridge_of_aux cs ih.1 ih.2
    by_cases hnl : c = '\n'
    · subst hnl
      rw [splitOnChar_cons_self, splitOnPred_cons_true (show isDelim '\n' = true from rfl)]
      rw [headI_cons, headI_cons, List.tail_cons, List.tail_cons]
      refine ⟨rfl, ?_⟩
      show [] ++ (splitOnChar '\n' cs).flatMap lineWords =
        (splitOnPred isDelim cs).filter (fun w => !w.isEmpty)
      rw [List.nil_append, hb]
      rfl
    · by_cases hsp : c = ' '
      · subst hsp
        rw [splitOnChar_cons_ne hnl, headI_cons, List.tail_cons]
        rw [splitOnChar_cons_self, splitOnPred_cons_true (show isDelim ' ' = true from rfl)]
        rw [headI_cons, headI_cons, List.tail_cons, List.tail_cons]
        refine ⟨rfl, ?_⟩
        rw [← headI_cons_tail (splitOnChar_ne_nil '\n' cs), List.flatMap_cons] at hb
        have hW : lineWords ((splitOnChar '\n' cs).headI) =
            (splitOnChar ' ' ((splitOnChar '\n' cs).headI)).filter (fun w => !w.isEmpty) := rfl
        rw [hW] at hb
        rw [hb]
        rfl
      · have hd : isDelim c = false := by simp [isDelim, hsp, hnl]
        rw [splitOnChar_cons_ne hnl, headI_cons, List.tail_cons]
        rw [splitOnChar_cons_ne hsp, splitOnPred_cons_false hd]
        rw [headI_cons, headI_cons, List.tail_cons, List.tail_cons]
        exact ⟨by rw [ih.1], ih.2⟩

/-- The words of the lines of a segment, with empties skipped, are exactly the
whitespace-delimited non-empty substrings of the whole segment. -/
theorem flatMap_lineWords (s : Str) :
    (splitOnChar '\n' s).flatMap lineWords = wordsSpec s :=
  bridge_of_aux s (split_aux s).1 (split_aux s).2

/-! ### Words emitted by a whole `tag_text` call -/

theorem words_tag_text (text tag_type : Str) {data : List Sentence} (h : data ≠ []) :
    (tag_text text tag_type data).flatten.map Prod.fst =
      data.flatten.map Prod.fst ++ wordsSpec text := by
  rw [flatten_tag_text text tag_type h, List.map_append]
  congr 1
  rw [← flatMap_lineWords text]
  generalize splitOnChar '\n' text = lines
  induction lines with
  | nil => rfl
  | cons l ls ih =>
    rw [List.flatMap_cons, List.flatMap_cons, List.map_append, ih]
    congr 1
    rw [map_fst_wordPairs]
    show lineWords (stripSpaces l) = lineWords l
    exact lineWords_stripSpaces l

/-! ### Lemmas about the text and tail steps of `xml2iob` -/

theorem textStep_ne_nil {tag : Str} {attrib : List (Str × Str)} {text : Str}
    {data d1 : List Sentence} (h : data ≠ [])
    (hok : textStep tag attrib text data = .ok d1) : d1 ≠ [] := by
  unfold textStep at hok
  by_cases ht : text = []
  · rw [if_neg (by simp [ht])] at hok
    injection hok with he
    rw [← he]; exact h
  · rw [if_pos ht] at hok
    by_cases hg : tag = enamexTag
    · rw [if_pos hg] at hok
      cases hl : lookupAttr attrib typeKey with
      | some v =>
        rw [hl] at hok
        injection hok with he
        rw [← he]; exact tag_text_ne_nil _ _ h
      | none => rw [hl] at hok; cases hok
    · rw [if_neg hg] at hok
      injection hok with he
      rw [← he]; exact tag_text_ne_nil _ _ h

theorem textStep_append (tag : Str) (attrib : List (Str × Str)) (text : Str)
    (xs : List Sentence) {d : List Sentence} (h : d ≠ []) :
    textStep tag attrib text (xs ++ d) =
      (textStep tag attrib text d).map (fun r => xs ++ r) := by
  unfold textStep
  by_cases ht : text = []
  · rw [if_neg (by simp [ht]), if_neg (by simp [ht])]
    rfl
  · rw [if_pos ht, if_pos ht]
    by_cases hg : tag = enamexTag
    · rw [if_pos hg, if_pos hg]
      cases hl : lookupAttr attrib typeKey with
      | some v =>
        dsimp only
        rw [tag_text_append _ _ xs h]
        rfl
      | none => rfl
    · rw [if_neg hg, if_neg hg, tag_text_append _ _ xs h]
      rfl

theorem words_textStep {tag : Str} {attrib : List (Str × Str)} {text : Str}
    {data d1 : List Sentence} (h : data ≠ [])
    (hok : textStep tag attrib text data = .ok d1) :
    d1.flatten.map Prod.fst = data.flatten.map Prod.fst ++ wordsSpec text := by
  unfold textStep at hok
  by_cases ht : text = []
  · rw [if_neg (by simp [ht])] at hok
    injection hok with he
    rw [← he, ht, show wordsSpec ([] : Str) = [] from rfl, List.append_nil]
  · rw [if_pos ht] at hok
    by_cases hg : tag = enamexTag
    · rw [if_pos hg] at hok
      cases hl : lookupAttr attrib typeKey with
      | some v =>
        rw [hl] at hok
        injection hok with he
        rw [← he, words_tag_text text _ h]
      | none => rw [hl] at hok; cases hok
    · rw [if_neg hg] at hok
      injection hok with he
      rw [← he, words_tag_text text _ h]

theorem textStep_error_iff (tag : Str) (attrib : List (Str × Str)) (text : Str)
    (data : List Sentence) :
    (∃ e, textStep tag attrib text data = .error e) ↔
      (text ≠ [] ∧ tag = enamexTag ∧ lookupAttr attrib typeKey = none) := by
  unfold textStep
  by_cases ht : text = []
  · rw [if_neg (by simp [ht])]
    simp [ht]
  · rw [if_pos ht]
    by_cases hg : tag = enamexTag
    · rw [if_pos hg]
      cases hl : lookupAttr attrib typeKey with
      | some v => simp [hl]
      | none => simp [ht, hg]
    · rw [if_neg hg]
      simp [hg]

theorem tailStep_ne_nil (tail : Str) {data : List Sentence} (h : data ≠ []) :
    tailStep tail data ≠ [] := by
  unfold tailStep
  by_cases ht : tail = []
  · rw [if_neg (by simp [ht])]; exact h
  · rw [if_pos ht]; exact tag_text_ne_nil _ _ h

theorem tailStep_append (tail : Str) (xs : List Sentence) {d : List Sentence} (h : d ≠ []) :
    tailStep tail (xs ++ d) = xs ++ tailStep tail d := by
  unfold tailStep
  by_cases ht : tail = []
  · rw [if_neg (by simp [ht]), if_neg (by simp [ht])]
  · rw [if_pos ht, if_pos ht, tag_text_append _ _ xs h]

theorem words_tailStep (tail : Str) {data : List Sentence} (h : data ≠ []) :
    (tailStep tail data).flatten.map Prod.fst =
      data.flatten.map Prod.fst ++ wordsSpec tail := by
  unfold tailStep
  by_cases ht : tail = []
  · rw [if_neg (by simp [ht]), ht, show wordsSpec ([] : Str) = [] from rfl, List.append_nil]
  · rw [if_pos ht, words_tag_text tail _ h]

/-! ### Mutual-induction lemmas about `xml2iob` -/

mutual

theorem xml2iob_ne_nil : ∀ (node : XmlNode) {data out : List Sentence},
    data ≠ [] → xml2iob node data = .ok out → out ≠ []
  | .mk tag attrib text children tail, data, out, h, hok => by
    rw [xml2iob] at hok
    cases h1 : textStep tag attrib text data with
    | error e => rw [h1] at hok; cases hok
    | ok d1 =>
      rw [h1] at hok
      dsimp only at hok
      cases h2 : xml2iobList children d1 with
      | error e => rw [h2] at hok; cases hok
      | ok d2 =>
        rw [h2] at hok
        dsimp only at hok
        injection hok with he
        rw [← he]
        exact tailStep_ne_nil tail
          (xml2iobList_ne_nil children (textStep_ne_nil h h1) h2)

theorem xml2iobList_ne_nil : ∀ (nodes : List XmlNode) {data out : List Sentence},
    data ≠ [] → xml2iobList nodes data = .ok out → out ≠ []
  | [], data, out, h, hok => by
    rw [xml2iobList] at hok
    injection hok with he
    rw [← he]; exact h
  | c :: cs, data, out, h, hok => by
    rw [xml2iobList] at hok
    cases h1 : xml2iob c data with
    | error e => rw [h1] at hok; cases hok
    | ok d1 =>
      rw [h1] at hok
      dsimp only at hok
      exact xml2iobList_ne_nil cs (xml2iob_ne_nil c h h1) hok

end

mutual

theorem xml2iob_append : ∀ (node : XmlNode) (xs : List Sentence) {d : List Sentence},
    d ≠ [] → xml2iob node (xs ++ d) = (xml2iob node d).map (fun r => xs ++ r)
  | .mk tag attrib text children tail, xs, d, h => by
    rw [xml2iob, xml2iob, textStep_append tag attrib text xs h]
    cases h1 : textStep tag attrib text d with
    | error e => rfl
    | ok d1 =>
      have hd1 : d1 ≠ [] := textStep_ne_nil h h1
      dsimp only [Except.map]
      rw [xml2iobList_append children xs hd1]
      cases h2 : xml2iobList children d1 with
      | error e => rfl
      | ok d2 =>
        have hd2 : d2 ≠ [] := xml2iobList_ne_nil children hd1 h2
        dsimp only [Except.map]
        rw [tailStep_append tail xs hd2]

theorem xml2iobList_append : ∀ (nodes : List XmlNode) (xs : List Sentence) {d : List Sentence},
    d ≠ [] → xml2iobList nodes (xs ++ d) = (xml2iobList nodes d).map (fun r => xs ++ r)
  | [], xs, d, h => by rw [xml2iobList, xml2iobList]; rfl
  | c :: cs, xs, d, h => by
    rw [xml2iobList, xml2iobList, xml2iob_append c xs h]
    cases h1 : xml2iob c d with
    | error e => rfl
    | ok d1 =>
      dsimp only [Except.map]
      exact xml2iobList_append cs xs (xml2iob_ne_nil c h h1)

end

mutual

theorem words_xml2iob : ∀ (node : XmlNode) {data out : List Sentence},
    data ≠ [] → xml2iob node data = .ok out →
      out.flatten.map Prod.fst = data.flatten.map Prod.fst ++ docWords node
  | .mk tag attrib text children tail, data, out, h, hok => by
    rw [xml2iob] at hok
    cases h1 : textStep tag attrib text data with
    | error e => rw [h1] at hok; cases hok
    | ok d1 =>
      rw [h1] at hok
      dsimp only at hok
      cases h2 : xml2iobList children d1 with
      | error e => rw [h2] at hok; cases hok
      | ok d2 =>
        rw [h2] at hok
        dsimp only at hok
        injection hok with he
        have hd1 : d1 ≠ [] := textStep_ne_nil h h1
        have hd2 : d2 ≠ [] := xml2iobList_ne_nil children hd1 h2
        rw [← he, words_tailStep tail hd2, words_xml2iobList children hd1 h2,
          words_textStep h h1, docWords]
        simp [List.append_assoc]

theorem words_xml2iobList : ∀ (nodes : List XmlNode) {data out : List Sentence},
    data ≠ [] → xml2iobList nodes data = .ok out →
      out.flatten.map Prod.fst = data.flatten.map Prod.fst ++ docWordsList nodes
  | [], data, out, h, hok => by
    rw [xml2iobList] at hok
    injection hok with he
    rw [← he, docWordsList]
    simp
  | c :: cs, data, out, h, hok => by
    rw [xml2iobList] at hok
    cases h1 : xml2iob c data with
    | error e => rw [h1] at hok; cases hok
    | ok d1 =>
      rw [h1] at hok
      dsimp only at hok
      rw [words_xml2iobList cs (xml2iob_ne_nil c h h1) hok, words_xml2iob c h h1,
        docWordsList]
      simp [List.append_assoc]

end

mutual

theorem xml2iob_ok_of_not_malformed : ∀ (node : XmlNode) (data : List Sentence),
    hasMalformedEntity node = false → ∃ out, xml2iob node data = .ok out
  | .mk tag attrib text children tail, data, h => by
    rw [hasMalformedEntity] at h
    rw [Bool.or_eq_false_iff] at h
    cases h1 : textStep tag attrib text data with
    | error e =>
      exfalso
      have hme := (textStep_error_iff tag attrib text data).mp ⟨e, h1⟩
      have hbad : (decide (tag = enamexTag) && !text.isEmpty &&
          (lookupAttr attrib typeKey).isNone) = true := by
        rw [Bool.and_eq_true, Bool.and_eq_true]
        refine ⟨⟨decide_eq_true hme.2.1, ?_⟩, Option.isNone_iff_eq_none.mpr hme.2.2⟩
        cases htx : text with
        | nil => exact absurd htx hme.1
        | cons a as => rfl
      rw [h.1] at hbad
      exact Bool.noConfusion hbad
    | ok d1 =>
      obtain ⟨d2, h2⟩ := xml2iobList_ok_of_not_malformed children d1 h.2
      refine ⟨tailStep tail d2, ?_⟩
      rw [xml2iob, h1]
      dsimp only
      rw [h2]

theorem xml2iobList_ok_of_not_malformed : ∀ (nodes : List XmlNode) (data : List Sentence),
    hasMalformedEntityList nodes = false → ∃ out, xml2iobList nodes data = .ok out
  | [], data, _ => ⟨data, rfl⟩
  | c :: cs, data, h => by
    rw [hasMalformedEntityList, Bool.or_eq_false_iff] at h
    obtain ⟨d1, h1⟩ := xml2iob_ok_of_not_malformed c data h.1
    obtain ⟨out, h2⟩ := xml2iobList_ok_of_not_malformed cs d1 h.2
    refine ⟨out, ?_⟩
    rw [xml2iobList, h1]
    dsimp only
    exact h2

end

mutual

theorem xml2iob_error_of_malformed : ∀ (node : XmlNode) (data : List Sentence),
    hasMalformedEntity node = true → xml2iob node data = .error .keyErrorTYPE
  | .mk tag attrib text children tail, data, h => by
    rw [hasMalformedEntity, Bool.or_eq_true_iff] at h
    rw [xml2iob]
    cases h1 : textStep tag attrib text data with
    | error e =>
      have := (textStep_error_iff tag attrib text data).mp ⟨e, h1⟩
      have : textStep tag attrib text data = .error .keyErrorTYPE := by
        unfold textStep
        rw [if_pos this.1, if_pos this.2.1, this.2.2]
      rw [h1] at this
      injection this with he
      rw [he]
    | ok d1 =>
      have hgood : (decide (tag = enamexTag) && !text.isEmpty &&
          (lookupAttr attrib typeKey).isNone) = false := by
        by_contra hc
        rw [Bool.not_eq_false, Bool.and_eq_true, Bool.and_eq_true] at hc
        obtain ⟨⟨hg, htx⟩, hn⟩ := hc
        have htx' : text ≠ [] := by
          intro hh
          rw [hh] at htx
          exact absurd htx (by decide)
        obtain ⟨e, he⟩ := (textStep_error_iff tag attrib text data).mpr
          ⟨htx', of_decide_eq_true hg, Option.isNone_iff_eq_none.mp hn⟩
        rw [he] at h1
        cases h1
      rw [hgood] at h
      rcases h with h | h
      · cases h
      · dsimp only
        rw [xml2iobList_error_of_malformed children d1 h]

theorem xml2iobList_error_of_malformed : ∀ (nodes : List XmlNode) (data : List Sentence),
    hasMalformedEntityList nodes = true → xml2iobList nodes data = .error .keyErrorTYPE
  | [], _, h => by
    rw [hasMalformedEntityList] at h
    exact Bool.noConfusion h
  | c :: cs, data, h => by
    rw [hasMalformedEntityList, Bool.or_eq_true_iff] at h
    rw [xml2iobList]
    by_cases hc : hasMalformedEntity c = true
    · rw [xml2iob_error_of_malformed c data hc]
    · obtain ⟨d1, h1⟩ := xml2iob_ok_of_not_malformed c data (by simpa using hc)
      rw [h1]
      dsimp only
      rcases h with h | h
      · exact absurd h hc
      · exact xml2iobList_error_of_malformed cs d1 h

end

/-! ### Partitioning lemmas -/

theorem build_random_partitions_sizes_100 {α : Type} (shuffle : List α → List α)
    (iob_data : List α) (hshuf : (shuffle iob_data).length = 100) :
    (build_random_partitions shuffle iob_data (7/100) (7/100)).1.length = 7 ∧
      (build_random_partitions shuffle iob_data (7/100) (7/100)).2.1.length = 7 ∧
      (build_random_partitions shuffle iob_data (7/100) (7/100)).2.2.length = 86 := by
  have hfl : ((⌊(7/100 : ℚ) * ((100 : Nat) : ℚ)⌋).toNat) = 7 := by
    have h7 : ⌊(7/100 : ℚ) * ((100 : Nat) : ℚ)⌋ = 7 := by norm_num
    rw [h7]
    rfl
  unfold build_random_partitions deepcopy
  dsimp only
  rw [hshuf, hfl]
  simp only [List.length_take, List.length_drop, hshuf]
  refine ⟨by decide, by decide, by decide⟩

theorem build_random_partitions_heap_spec {α : Type} (shuffle : List α → List α)
    (vf tf : ℚ) (store : List (List α)) (p : Nat) (hp : p < store.length) :
    (build_random_partitions_heap shuffle vf tf store p).1.getD p [] = store.getD p [] ∧
      (build_random_partitions_heap shuffle vf tf store p).2 =
        build_random_partitions shuffle (store.getD p []) vf tf := by
  unfold build_random_partitions_heap build_random_partitions deepcopy
  dsimp only
  have hq : ((store ++ [store.getD p []]).getD store.length []) = store.getD p [] := by
    rw [List.getD_eq_getElem?_getD, List.getElem?_concat_length]
    rfl
  rw [hq]
  constructor
  · rw [List.getD_eq_getElem?_getD,
      List.getElem?_set_ne (Nat.ne_of_lt hp).symm, List.getElem?_append_left hp,
      ← List.getD_eq_getElem?_getD]
  · rw [List.getD_eq_getElem?_getD,
      List.getElem?_set_self (by simp), Option.getD_some]

/-! ### Validator behaviour of `parse_iob_file` -/

theorem parse_iob_file_spec (filename raw_data : Str) (et_root : XmlNode)
    {d : List Sentence} (hok : xml2iob et_root [[]] = .ok d) :
    (parse_iob_file filename raw_data et_root =
        .error (.mismatch filename (d.filter (fun s => !s.isEmpty)).length
          ((countNonEmptyLines raw_data : Int) - 2)) ↔
      ((d.filter (fun s => !s.isEmpty)).length : Int) ≠ (countNonEmptyLines raw_data : Int) - 2) ∧
      (parse_iob_file filename raw_data et_root = .ok (d.filter (fun s => !s.isEmpty)) ↔
        ((d.filter (fun s => !s.isEmpty)).length : Int) = (countNonEmptyLines raw_data : Int) - 2) := by
  unfold parse_iob_file
  rw [hok]
  dsimp only
  by_cases hc : ((d.filter (fun s => !s.isEmpty)).length : Int) ≠
      (countNonEmptyLines raw_data : Int) - 2
  · rw [if_pos hc]
    refine ⟨⟨fun _ => hc, fun _ => rfl⟩, ⟨fun he => ?_, fun he => absurd he hc⟩⟩
    cases he
  · rw [if_neg hc]
    push_neg at hc
    refine ⟨⟨fun he => ?_, fun hne => absurd hc hne⟩, ⟨fun _ => hc, fun _ => rfl⟩⟩
    cases he

/-! ### Round-trip lemmas for the IOB serialization -/

theorem splitOnPred_all_false {α : Type} (p : α → Bool) :
    ∀ (xs : List α), (∀ x ∈ xs, p x = false) → splitOnPred p xs = [xs]
  | [], _ => rfl
  | x :: xs, h => by
    rw [splitOnPred_cons_false (h x (by simp)),
      splitOnPred_all_false p xs (fun y hy => h y (by simp [hy]))]
    rfl

theorem splitOnPred_append_cons {α : Type} (p : α → Bool) (sep : α) (hsep : p sep = true) :
    ∀ (xs : List α), (∀ x ∈ xs, p x = false) → ∀ (ys : List α),
      splitOnPred p (xs ++ sep :: ys) = xs :: splitOnPred p ys
  | [], _, ys => by rw [List.nil_append, splitOnPred_cons_true hsep]
  | x :: xs, h, ys => by
    rw [List.cons_append, splitOnPred_cons_false (h x (by simp)),
      splitOnPred_append_cons p sep hsep xs (fun y hy => h y (by simp [hy])) ys]
    rfl

theorem takeWhile_until_space (t : Str) :
    ∀ (w : Str), ' ' ∉ w → (w ++ ' ' :: t).takeWhile (fun c => c ≠ ' ') = w
  | [], _ => by simp [List.takeWhile_cons]
  | c :: w, hw => by
    have hc : c ≠ ' ' := fun hh => hw (by simp [hh])
    rw [List.cons_append, List.takeWhile_cons_of_pos (by simpa using hc),
      takeWhile_until_space t w (fun hm => hw (by simp [hm]))]

theorem dropWhile_until_space (t : Str) :
    ∀ (w : Str), ' ' ∉ w → (w ++ ' ' :: t).dropWhile (fun c => c ≠ ' ') = ' ' :: t
  | [], _ => by simp [List.dropWhile_cons]
  | c :: w, hw => by
    have hc : c ≠ ' ' := fun hh => hw (by simp [hh])
    rw [List.cons_append, List.dropWhile_cons_of_pos (by simpa using hc),
      dropWhile_until_space t w (fun hm => hw (by simp [hm]))]

theorem splitFirstSpace_lineOf (w t : Str) (hw : ' ' ∉ w) :
    splitFirstSpace (w ++ ' ' :: t) = (w, t) := by
  unfold splitFirstSpace
  rw [takeWhile_until_space t w hw, dropWhile_until_space t w hw]
  rfl

theorem map_splitFirstSpace_lineOf :
    ∀ (s : Sentence), (∀ tt ∈ s, ' ' ∉ tt.1) →
      (s.map (fun tt => tt.1 ++ ' ' :: tt.2)).map splitFirstSpace = s
  | [], _ => rfl
  | tt :: s, h => by
    rw [List.map_cons, List.map_cons,
      splitFirstSpace_lineOf tt.1 tt.2 (h tt (by simp)),
      map_splitFirstSpace_lineOf s (fun u hu => h u (by simp [hu]))]

theorem splitOnChar_append_cons (c : Char) (xs : Str) (hxs : ∀ x ∈ xs, x ≠ c) (ys : Str) :
    splitOnChar c (xs ++ c :: ys) = xs :: splitOnChar c ys := by
  unfold splitOnChar
  exact splitOnPred_append_cons _ c (by simp) xs (fun x hx => by simpa using hxs x hx) ys

theorem splitNl_sentLines :
    ∀ (sent : Sentence), (∀ tt ∈ sent, '\n' ∉ tt.1 ∧ '\n' ∉ tt.2) → ∀ (rest : Str),
      splitOnChar '\n' (sentLines sent ++ rest) =
        (sent.map (fun tt => tt.1 ++ ' ' :: tt.2)) ++ splitOnChar '\n' rest
  | [], _, rest => by simp [sentLines]
  | tt :: sent, h, rest => by
    have hline : ∀ x ∈ tt.1 ++ ' ' :: tt.2, x ≠ '\n' := by
      intro x hx he
      subst he
      rcases List.mem_append.mp hx with hx | hx
      · exact (h tt (by simp)).1 hx
      · rcases List.mem_cons.mp hx with hx | hx
        · exact absurd hx (by decide)
        · exact (h tt (by simp)).2 hx
    have heq : sentLines (tt :: sent) ++ rest =
        (tt.1 ++ ' ' :: tt.2) ++ '\n' :: (sentLines sent ++ rest) := by
      unfold sentLines
      simp [List.append_assoc]
    rw [heq, splitOnChar_append_cons '\n' _ hline,
      splitNl_sentLines sent (fun u hu => h u (by simp [hu])) rest]
    rfl

theorem write_parse_round : ∀ (data : List Sentence),
    (∀ s ∈ data, s ≠ []) →
    (∀ s ∈ data, ∀ tt ∈ s, ' ' ∉ tt.1 ∧ '\n' ∉ tt.1 ∧ '\n' ∉ tt.2) →
    ∃ out, write_iob data = some out ∧ parse_iob out = data
  | [], _, _ => ⟨[], rfl, rfl⟩
  | [s], hne, hcl => by
    have hs : s ≠ [] := hne s (by simp)
    have hnl : ∀ tt ∈ s, '\n' ∉ tt.1 ∧ '\n' ∉ tt.2 := fun tt ht =>
      ⟨(hcl s (by simp) tt ht).2.1, (hcl s (by simp) tt ht).2.2⟩
    have hxs : ∀ line ∈ s.map (fun tt => tt.1 ++ ' ' :: tt.2), line.isEmpty = false := by
      intro line hl
      obtain ⟨tt, _, hteq⟩ := List.mem_map.mp hl
      rw [← hteq]
      cases htt : tt.1 with
      | nil => rfl
      | cons a as => rfl
    have hmne : (s.map (fun tt => tt.1 ++ ' ' :: tt.2)).isEmpty = false := by
      cases hss : s with
      | nil => exact absurd hss hs
      | cons a as => rfl
    refine ⟨sentLines s, ?_, ?_⟩
    · show write_iob [s] = some (sentLines s)
      rw [write_iob, if_neg (by simpa [List.isEmpty_iff] using hs)]
    · unfold parse_iob
      have h1 : splitOnChar '\n' (sentLines s) =
          (s.map (fun tt => tt.1 ++ ' ' :: tt.2)) ++ [] :: [] := by
        have hsp := splitNl_sentLines s hnl []
        rw [List.append_nil] at hsp
        exact hsp
      rw [h1, splitOnPred_append_cons (fun line : Str => line.isEmpty) [] rfl _ hxs []]
      rw [show splitOnPred (fun line : Str => line.isEmpty) [] = [[]] from rfl]
      rw [List.filter_cons, if_pos (by rw [hmne]; rfl)]
      rw [show List.filter (fun g : List Str => !g.isEmpty) [[]] = [] from rfl]
      rw [List.map_cons, List.map_nil,
        map_splitFirstSpace_lineOf s (fun tt ht => (hcl s (by simp) tt ht).1)]
  | s :: s2 :: rest, hne, hcl => by
    have hs : s ≠ [] := hne s (by simp)
    have hnl : ∀ tt ∈ s, '\n' ∉ tt.1 ∧ '\n' ∉ tt.2 := fun tt ht =>
      ⟨(hcl s (by simp) tt ht).2.1, (hcl s (by simp) tt ht).2.2⟩
    have hxs : ∀ line ∈ s.map (fun tt => tt.1 ++ ' ' :: tt.2), line.isEmpty = false := by
      intro line hl
      obtain ⟨tt, _, hteq⟩ := List.mem_map.mp hl
      rw [← hteq]
      cases htt : tt.1 with
      | nil => rfl
      | cons a as => rfl
    have hmne : (s.map (fun tt => tt.1 ++ ' ' :: tt.2)).isEmpty = false := by
      cases hss : s with
      | nil => exact absurd hss hs
      | cons a as => rfl
    obtain ⟨out', hw', hp'⟩ := write_parse_round (s2 :: rest)
      (fun u hu => hne u (List.mem_cons_of_mem s hu))
      (fun u hu => hcl u (List.mem_cons_of_mem s hu))
    refine ⟨sentLines s ++ '\n' :: out', ?_, ?_⟩
    · show write_iob (s :: s2 :: rest) = _
      rw [write_iob, if_neg (by simpa [List.isEmpty_iff] using hs)]
      rw [hw']
      rfl
    · unfold parse_iob
      rw [splitNl_sentLines s hnl ('\n' :: out'), splitOnChar_cons_self,
        splitOnPred_append_cons (fun line : Str => line.isEmpty) [] rfl _ hxs _]
      rw [List.filter_cons, if_pos (by rw [hmne]; rfl)]
      rw [List.map_cons,
        map_splitFirstSpace_lineOf s (fun tt ht => (hcl s (by simp) tt ht).1)]
      have hrec := hp'
      unfold parse_iob at hrec
      rw [hrec]

/-! ### B/I structure of the pairs emitted for one line -/

theorem wordPairs_I (tag_type : Str) : ∀ (ws : List Str),
    wordPairs tag_type 'I' ws =
      (ws.filter (fun w => !w.isEmpty)).map (fun w => (w, mkTag 'I' tag_type))
  | [] => rfl
  | w :: ws => by
    by_cases hw : w = []
    · subst hw
      rw [show wordPairs tag_type 'I' ([] :: ws) = wordPairs tag_type 'I' ws from by
          rw [wordPairs]; simp,
        wordPairs_I tag_type ws]
      rfl
    · have hemp : w.isEmpty = false := by
        cases w with
        | nil => exact absurd rfl hw
        | cons a as => rfl
      rw [show wordPairs tag_type 'I' (w :: ws) =
          (w, mkTag 'I' tag_type) :: wordPairs tag_type 'I' ws from by
          rw [wordPairs]; simp [hw],
        wordPairs_I tag_type ws, List.filter_cons, if_pos (by rw [hemp]; rfl)]
      rfl

theorem wordPairs_B (tag_type : Str) : ∀ (ws : List Str),
    wordPairs tag_type 'B' ws =
      match ws.filter (fun w => !w.isEmpty) with
      | [] => []
      | w :: rest =>
        (w, mkTag 'B' tag_type) :: rest.map (fun r => (r, mkTag 'I' tag_type))
  | [] => rfl
  | w :: ws => by
    by_cases hw : w = []
    · subst hw
      rw [show wordPairs tag_type 'B' ([] :: ws) = wordPairs tag_type 'B' ws from by
          rw [wordPairs]; simp,
        wordPairs_B tag_type ws]
      rfl
    · have hemp : w.isEmpty = false := by
        cases w with
        | nil => exact absurd rfl hw
        | cons a as => rfl
      rw [show wordPairs tag_type 'B' (w :: ws) =
          (w, mkTag 'B' tag_type) :: wordPairs tag_type 'I' ws from by
          rw [wordPairs]; simp [hw],
        wordPairs_I tag_type ws, List.filter_cons, if_pos (by rw [hemp]; rfl)]

/-! ### Claim theorems -/

/-- C1: for a corpus of 100 sentences and the default fractions, the tuple
returned by `build_random_partitions` has a `train_data` component of
`floor(0.07*100) = 7` elements and a `test_data` component of the remaining
`86` elements, for any length-preserving shuffle.  The claim (and the spec's
"7% validation, 7% test, remainder train") expects `train_data` to be the
86-element remainder and `test_data` the 7-element slice: the slice labels in
the source are scrambled (`train_data = iob_data[:valid_end]`,
`test_data = iob_data[test_end:]`), which `main` compensates for by writing
`train_data` to the validation file, `valid_data` to the test file and
`test_data` to the training file. -/
theorem C1_partition_slice_sizes (shuffle : List Nat → List Nat)
    (hshuf : (shuffle (List.range 100)).length = 100) :
    (build_random_partitions shuffle (List.range 100) (7/100) (7/100)).1.length = 7 ∧
      (build_random_partitions shuffle (List.range 100) (7/100) (7/100)).2.1.length = 7 ∧
      (build_random_partitions shuffle (List.range 100) (7/100) (7/100)).2.2.length = 86 :=
  build_random_partitions_sizes_100 shuffle (List.range 100) hshuf

theorem C1_partition_slice_sizes_witness :
    ((fun l : List Nat => l) (List.range 100)).length = 100 ∧
      ((build_random_partitions (fun l : List Nat => l) (List.range 100) (7/100) (7/100)).1.length = 7 ∧
        (build_random_partitions (fun l : List Nat => l) (List.range 100) (7/100) (7/100)).2.1.length = 7 ∧
        (build_random_partitions (fun l : List Nat => l) (List.range 100) (7/100) (7/100)).2.2.length = 86) :=
  ⟨by simp, C1_partition_slice_sizes (fun l => l) (by simp)⟩

/-- C2: for every document tree, a successful run of the linearizer from the
initial `[[]]` accumulator emits exactly one `(token, tag)` pair per
whitespace-delimited non-empty substring of the text and tail segments of the
tree, in document order: the words of the emitted pairs equal `docWords`, and
in particular the counts agree. -/
theorem C2_token_stream_preserved (node : XmlNode) {out : List Sentence}
    (hok : xml2iob node [[]] = .ok out) :
    out.flatten.map Prod.fst = docWords node ∧
      out.flatten.length = (docWords node).length := by
  have hw := words_xml2iob node (by simp) hok
  have hw' : out.flatten.map Prod.fst = docWords node := by simpa using hw
  refine ⟨hw', ?_⟩
  rw [← hw', List.length_map]

theorem C2_token_stream_preserved_witness :
    xml2iob
        (XmlNode.mk "DOC".toList [] "x y".toList
          [XmlNode.mk enamexTag [(typeKey, "ORG".toList)] "IBM".toList [] " z".toList] [])
        [[]] =
      .ok [[("x".toList, ['O']), ("y".toList, ['O']),
            ("IBM".toList, "B-org".toList), ("z".toList, ['O'])]] ∧
      ([[("x".toList, ['O']), ("y".toList, ['O']),
          ("IBM".toList, "B-org".toList), ("z".toList, ['O'])]] : List Sentence).flatten.map
          Prod.fst =
        docWords
          (XmlNode.mk "DOC".toList [] "x y".toList
            [XmlNode.mk enamexTag [(typeKey, "ORG".toList)] "IBM".toList [] " z".toList] []) :=
  ⟨rfl,
    (C2_token_stream_preserved
      (XmlNode.mk "DOC".toList [] "x y".toList
        [XmlNode.mk enamexTag [(typeKey, "ORG".toList)] "IBM".toList [] " z".toList] [])
      (show _ = Except.ok [[("x".toList, ['O']), ("y".toList, ['O']),
        ("IBM".toList, "B-org".toList), ("z".toList, ['O'])]] from rfl)).1⟩

/-- C3 counterexample: the entity-span segment `"John\nSmith"` with type
`person` yields two tokens, and BOTH are emitted with a `B-person` tag —
`tag_pos` is reset to `B` at the start of every line — contradicting the
claim that exactly one token of such a segment (the first) carries a B-tag
even when the segment contains newline characters. -/
theorem C3_newline_restarts_B_counterexample :
    tag_text "John\nSmith".toList "person".toList [[]] =
        [[("John".toList, "B-person".toList)], [("Smith".toList, "B-person".toList)]] ∧
      ((tag_text "John\nSmith".toList "person".toList [[]]).flatten.filter
          (fun tt => tt.2.headI = 'B')).length = 2 ∧
      (tag_text "John\nSmith".toList "person".toList [[]]).flatten.length = 2 := by
  refine ⟨by decide, by decide, by decide⟩

/-- C3 amended: within each LINE of an entity-span text segment with a
non-empty type, the first token of the line is emitted with a `B-` tag and
every other token of that line with an `I-` tag of the same type; the B/I
sequence restarts at every newline.  In particular a segment without newlines
has exactly one B-tagged token. -/
theorem C3_amended_per_line_BI (text tag_type : Str) (ht : tag_type ≠ [])
    {data : List Sentence} (h : data ≠ []) :
    (tag_text text tag_type data).flatten =
      data.flatten ++ (splitOnChar '\n' text).flatMap (lineTagsBI tag_type) := by
  rw [flatten_tag_text text tag_type h]
  congr 1
  have hpt : ∀ l : Str,
      wordPairs tag_type 'B' (splitOnChar ' ' (stripSpaces l)) = lineTagsBI tag_type l := by
    intro l
    have hfl : (splitOnChar ' ' (stripSpaces l)).filter (fun w => !w.isEmpty) = lineWords l := by
      rw [show (splitOnChar ' ' (stripSpaces l)).filter (fun w => !w.isEmpty) =
          lineWords (stripSpaces l) from rfl, lineWords_stripSpaces]
    rw [wordPairs_B, hfl]
    unfold lineTagsBI
    cases hlw : lineWords l with
    | nil => rfl
    | cons w rest => simp [mkTag, ht]
  simp only [hpt]

theorem C3_amended_per_line_BI_witness :
    ("person".toList : Str) ≠ [] ∧
      (tag_text "John\nSmith Doe".toList "person".toList [[]]).flatten =
        ([[]] : List Sentence).flatten ++
          (splitOnChar '\n' "John\nSmith Doe".toList).flatMap (lineTagsBI "person".toList) :=
  ⟨by decide, C3_amended_per_line_BI "John\nSmith Doe".toList "person".toList
    (by decide) (by decide)⟩

/-- C4: given a successfully linearized document, `parse_iob_file` raises the
mismatch error — naming the file, the parsed sentence count and the raw count
— exactly when the number of non-empty parsed sentences differs from the
count of non-empty raw lines minus 2, and returns the sentences exactly when
the counts agree. -/
theorem C4_validator_mismatch_iff (filename raw_data : Str) (et_root : XmlNode)
    {d : List Sentence} (hok : xml2iob et_root [[]] = .ok d) :
    (parse_iob_file filename raw_data et_root =
        .error (.mismatch filename (d.filter (fun s => !s.isEmpty)).length
          ((countNonEmptyLines raw_data : Int) - 2)) ↔
      ((d.filter (fun s => !s.isEmpty)).length : Int) ≠
        (countNonEmptyLines raw_data : Int) - 2) ∧
      (parse_iob_file filename raw_data et_root = .ok (d.filter (fun s => !s.isEmpty)) ↔
        ((d.filter (fun s => !s.isEmpty)).length : Int) =
          (countNonEmptyLines raw_data : Int) - 2) :=
  parse_iob_file_spec filename raw_data et_root hok

theorem C4_validator_mismatch_iff_witness :
    parse_iob_file "f".toList "<DOC>\na b\nc\nd\n</DOC>".toList
        (XmlNode.mk "DOC".toList [] "a b\nc\nd".toList [] []) =
      .ok [[("a".toList, ['O']), ("b".toList, ['O'])], [("c".toList, ['O'])],
           [("d".toList, ['O'])]] ∧
    parse_iob_file "f".toList "<DOC>\na b\nc\nd\n</DOC>".toList
        (XmlNode.mk "DOC".toList [] "a b\nc\nd\ne".toList [] []) =
      .error (.mismatch "f".toList 4 3) := by
  constructor
  · exact (C4_validator_mismatch_iff "f".toList "<DOC>\na b\nc\nd\n</DOC>".toList
      (XmlNode.mk "DOC".toList [] "a b\nc\nd".toList [] [])
      (show _ = Except.ok [[("a".toList, ['O']), ("b".toList, ['O'])],
        [("c".toList, ['O'])], [("d".toList, ['O'])]] from rfl)).2.mpr (by decide)
  · exact (C4_validator_mismatch_iff "f".toList "<DOC>\na b\nc\nd\n</DOC>".toList
      (XmlNode.mk "DOC".toList [] "a b\nc\nd\ne".toList [] [])
      (show _ = Except.ok [[("a".toList, ['O']), ("b".toList, ['O'])],
        [("c".toList, ['O'])], [("d".toList, ['O'])], [("e".toList, ['O'])]] from rfl)).1.mpr
      (by decide)

/-- C5 counterexample: after converting a document whose text is `"Alice\n"`,
the accumulator is `[[("Alice","O")], []]`: its last element is empty even
though a token of the document has already been appended — a newline pushes a
fresh empty sentence that stays empty when no further token arrives (these are
the empties the source later filters out with a FIXME).  This contradicts the
claim that the last element is empty only before the first token of the
document has been appended. -/
theorem C5_trailing_empty_counterexample :
    xml2iob (XmlNode.mk "DOC".toList [] "Alice\n".toList [] []) [[]] =
        .ok [[("Alice".toList, ['O'])], []] ∧
      ([[("Alice".toList, ['O'])], []] : List Sentence).getLast (by simp) = [] ∧
      ([[("Alice".toList, ['O'])], []] : List Sentence).flatten ≠ [] := by
  refine ⟨rfl, rfl, by decide⟩

/-- C5 amended: for every node and every non-empty accumulator, a successful
traversal returns a non-empty accumulator that consists of the untouched
earlier sentences followed by what the traversal makes of the last (current,
still-open) sentence alone: only the last element is read or extended, so the
last element is always the current open sentence.  (The last element may be
empty not only before the first token of the document but also right after a
newline split.) -/
theorem C5_amended_accumulator_invariant (node : XmlNode) (data : List Sentence)
    (h : data ≠ []) {out : List Sentence} (hok : xml2iob node data = .ok out) :
    out ≠ [] ∧
      ∃ cur, xml2iob node [data.getLast h] = .ok cur ∧ cur ≠ [] ∧
        out = data.dropLast ++ cur := by
  have hsplit : data.dropLast ++ [data.getLast h] = data :=
    List.dropLast_concat_getLast h
  rw [← hsplit, xml2iob_append node data.dropLast (by simp)] at hok
  cases hcur : xml2iob node [data.getLast h] with
  | error e => rw [hcur] at hok; cases hok
  | ok cur =>
    rw [hcur] at hok
    dsimp only [Except.map] at hok
    injection hok with he
    have hcne : cur ≠ [] := xml2iob_ne_nil node (by simp) hcur
    refine ⟨?_, cur, rfl, hcne, he.symm⟩
    rw [← he]
    simp [hcne]

theorem C5_amended_accumulator_invariant_witness :
    (([[("w".toList, ['O'])]] : List Sentence) ≠ []) ∧
      (([[("w".toList, ['O']), ("q".toList, ['O'])]] : List Sentence) ≠ [] ∧
        ∃ cur, xml2iob (XmlNode.mk "DOC".toList [] "q".toList [] [])
            [([[("w".toList, ['O'])]] : List Sentence).getLast (by simp)] = .ok cur ∧
          cur ≠ [] ∧
          ([[("w".toList, ['O']), ("q".toList, ['O'])]] : List Sentence) =
            ([[("w".toList, ['O'])]] : List Sentence).dropLast ++ cur) :=
  ⟨by decide,
    C5_amended_accumulator_invariant (XmlNode.mk "DOC".toList [] "q".toList [] [])
      [[("w".toList, ['O'])]] (by decide)
      (show _ = Except.ok [[("w".toList, ['O']), ("q".toList, ['O'])]] from rfl)⟩

/-- C6: an `ENAMEX` node with `TYPE="PERSON"`, text `"John Smith"` and tail
`" works here"` linearizes to the single open sentence
`[("John","B-person"),("Smith","I-person"),("works","O"),("here","O")]`: the
entity type is lowercased, the text gets B/I tags, and the tail is appended to
the same sentence with `O` tags. -/
theorem C6_person_scenario :
    xml2iob
        (XmlNode.mk enamexTag [(typeKey, "PERSON".toList)] "John Smith".toList []
          " works here".toList) [[]] =
      .ok [[("John".toList, "B-person".toList), ("Smith".toList, "I-person".toList),
            ("works".toList, ['O']), ("here".toList, ['O'])]] := by
  rfl

/-- C7: a newline inside a text segment closes the current sentence strictly
between lines: `"Alice\nBob"` outside any span produces exactly the two
sentences `[("Alice","O")]` and `[("Bob","O")]`, and in general, after every
line of a segment that is not the last one, the line loop appends a fresh
empty sentence to the accumulator. -/
theorem C7_newline_sentence_split :
    (tag_text "Alice\nBob".toList [] [[]] =
        [[("Alice".toList, ['O'])], [("Bob".toList, ['O'])]]) ∧
      ∀ (tag_type line l2 : Str) (ls : List Str) (data : List Sentence),
        tagLines tag_type (line :: l2 :: ls) data =
          tagLines tag_type (l2 :: ls) (tagLine tag_type line data ++ [[]]) :=
  ⟨by decide, fun _ _ _ _ _ => rfl⟩

/-- C8: serializing a non-empty list of non-empty sentences whose words and
tags contain no space and no newline with `write_iob` (one `word tag` line per
pair, one blank line between sentences, no trailing blank line) and re-parsing
the produced text (splitting into lines, grouping at blank lines, splitting
each line at its first space) reconstructs the original sentence list
exactly. -/
theorem C8_serialization_round_trip (data : List Sentence) (_hne : data ≠ [])
    (hsent : ∀ s ∈ data, s ≠ [])
    (hclean : ∀ s ∈ data, ∀ tt ∈ s,
      ' ' ∉ tt.1 ∧ '\n' ∉ tt.1 ∧ ' ' ∉ tt.2 ∧ '\n' ∉ tt.2) :
    ∃ out, write_iob data = some out ∧ parse_iob out = data :=
  write_parse_round data hsent (fun s hs tt ht =>
    ⟨(hclean s hs tt ht).1, (hclean s hs tt ht).2.1, (hclean s hs tt ht).2.2.2⟩)

theorem C8_serialization_round_trip_witness :
    (([[("a".toList, ['O'])], [("b".toList, "B-x".toList), ("c".toList, "I-x".toList)]] :
        List Sentence) ≠ []) ∧
      ∃ out,
        write_iob [[("a".toList, ['O'])],
          [("b".toList, "B-x".toList), ("c".toList, "I-x".toList)]] = some out ∧
        parse_iob out =
          [[("a".toList, ['O'])], [("b".toList, "B-x".toList), ("c".toList, "I-x".toList)]] :=
  ⟨by decide,
    C8_serialization_round_trip
      [[("a".toList, ['O'])], [("b".toList, "B-x".toList), ("c".toList, "I-x".toList)]]
      (by decide) (by decide) (by decide)⟩

/-- C9: a document containing an entity-span (`ENAMEX`) node with truthy text
but no `TYPE` attribute fails with the `KeyError`, from any accumulator state:
the result is the error — there is no silent default type — and no sentence
list (partial or otherwise) is returned for that document. -/
theorem C9_malformed_entity_fatal (node : XmlNode) (data : List Sentence)
    (h : hasMalformedEntity node = true) :
    xml2iob node data = .error PyErr.keyErrorTYPE ∧
      ∀ out, xml2iob node data ≠ .ok out := by
  refine ⟨xml2iob_error_of_malformed node data h, fun out hc => ?_⟩
  rw [xml2iob_error_of_malformed node data h] at hc
  cases hc

theorem C9_malformed_entity_fatal_witness :
    hasMalformedEntity (XmlNode.mk enamexTag [] "John".toList [] []) = true ∧
      xml2iob (XmlNode.mk enamexTag [] "John".toList [] []) [[]] =
        .error PyErr.keyErrorTYPE :=
  ⟨by decide,
    (C9_malformed_entity_fatal (XmlNode.mk enamexTag [] "John".toList [] []) [[]]
      (by decide)).1⟩

/-- C10: in the store-passing model of `build_random_partitions`, the caller's
argument list is unchanged by the call — the deep copy is allocated at a fresh
address and the shuffle mutates only that copy — and the returned slices are
those of the pure function applied to the argument's value. -/
theorem C10_argument_unchanged {α : Type} (shuffle : List α → List α) (vf tf : ℚ)
    (store : List (List α)) (p : Nat) (hp : p < store.length) :
    (build_random_partitions_heap shuffle vf tf store p).1.getD p [] = store.getD p [] ∧
      (build_random_partitions_heap shuffle vf tf store p).2 =
        build_random_partitions shuffle (store.getD p []) vf tf :=
  build_random_partitions_heap_spec shuffle vf tf store p hp

theorem C10_argument_unchanged_witness :
    (0 < ([[1, 2], [3]] : List (List Nat)).length) ∧
      ((build_random_partitions_heap List.reverse (7/100) (7/100) [[1, 2], [3]] 0).1.getD 0 [] =
          ([[1, 2], [3]] : List (List Nat)).getD 0 [] ∧
        (build_random_partitions_heap List.reverse (7/100) (7/100) [[1, 2], [3]] 0).2 =
          build_random_partitions List.reverse (([[1, 2], [3]] : List (List Nat)).getD 0 [])
            (7/100) (7/100)) :=
  ⟨by decide, C10_argument_unchanged List.reverse (7/100) (7/100) [[1, 2], [3]] 0 (by decide)⟩

end On2iob
